import Mathlib

/-!
# Verification of `prt_phasecurve/phase_curve.py`

A shallow embedding of the phase-curve computation: the quadrature grid, the
mu-bracket lookup tables, the mu-band interpolation step, the rotation matrix,
the flux integration loop of `calc_phase_curve`, and the shape handling of
`wrap_phase_curve`.  Machine floats are idealised as exact ordered-field
arithmetic (polymorphic over a `LinearOrderedField`, instantiated at `ℚ` for
executable checks and at `ℝ` for the full pipeline, whose rotation involves
`π`, `cos`, `sin` and `sqrt`).  The scipy `RBFInterpolator` is an external
dependency; it is modelled as an abstract `fit` parameter together with the
shape check its constructor performs.
-/

namespace PrtPhasecurve

/-- Left-nested concatenation `f 0 ++ f 1 ++ ⋯ ++ f (n-1)`, mirroring a Python
loop `for k in range(n)` that appends the entries of `f k` to a list. -/
def appendEach {β : Type} (f : ℕ → List β) : ℕ → List β
  | 0 => []
  | n + 1 => appendEach f n ++ f n

section MuTables

variable (α : Type) [LinearOrderedField α]

/-- `np.linspace(0., 1., 11)` (phase_curve.py line 85). -/
def linspace_0_1_11 : List α := (List.range 11).map (fun k => (k : α) / 10)

/-- `mu_p_grid_bord = np.linspace(0.,1.,11)[::-1]` (line 85). -/
def mu_p_grid_bord : List α := (linspace_0_1_11 α).reverse

/-- `mu_p_mean = (mu_p_grid_bord[1:]+mu_p_grid_bord[:-1])/2.` (line 86). -/
def mu_p_mean : List α :=
  List.zipWith (fun a b => (a + b) / 2) ((mu_p_grid_bord α).drop 1) ((mu_p_grid_bord α).dropLast)

/-- `del_mu_p = -np.diff(mu_p_grid_bord)` (line 87); `np.diff x` is
`x[1:] - x[:-1]`. -/
def del_mu_p : List α :=
  List.zipWith (fun a b => -(a - b)) ((mu_p_grid_bord α).drop 1) ((mu_p_grid_bord α).dropLast)

/-- The inner loop `for jmu in range(len(mus)-1)` of lines 96-107, for one
quadrature mu centre `m`: each iteration appends to the (paired)
`do_intp`/`i_intps` lists according to the clamp-low / clamp-high / bracket
branch that fires. -/
def bracketHits (mus : List α) (m : α) : List (Bool × ℕ) :=
  appendEach (fun jmu =>
    if m ≤ mus.getD 0 0 then [(false, 0)]
    else if mus.getD (mus.length - 1) 0 < m then [(false, mus.length - 1)]
    else if mus.getD jmu 0 < m ∧ m ≤ mus.getD (jmu + 1) 0 then [(true, jmu)]
    else []) (mus.length - 1)

/-- The full double loop of lines 96-107 (`for imu in range(len(mu_p_mean))`):
the paired entries of the `do_intp` and `i_intps` lists, in append order. -/
def intpEntries (mus : List α) : List (Bool × ℕ) :=
  appendEach (fun imu => bracketHits α mus ((mu_p_mean α).getD imu 0)) (mu_p_mean α).length

/-- The `do_intp` list of line 94 (first components of the paired appends). -/
def do_intp (mus : List α) : List Bool := (intpEntries α mus).map Prod.fst

/-- The `i_intps` list of line 93 (second components of the paired appends). -/
def i_intps (mus : List α) : List ℕ := (intpEntries α mus).map Prod.snd

/-- The mu-band interpolation step of lines 127-133: given the field output
`interp` at one quadrature direction (a wavelength × mu-bin matrix, as a list
of rows), select or interpolate the per-wavelength intensity vector for
quadrature mu bin `itheta`.  `interp[0,:,i]` is the i-th column. -/
def I_use_at (mus : List α) (interp : List (List α)) (itheta : ℕ) : List α :=
  if (do_intp α mus).getD itheta false then
    let i := (i_intps α mus).getD itheta 0
    let I_small := interp.map (fun row => row.getD i 0)
    let I_large := interp.map (fun row => row.getD (i + 1) 0)
    List.zipWith
      (fun s l => s + (l - s) / (mus.getD (i + 1) 0 - mus.getD i 0) *
        ((mu_p_mean α).getD itheta 0 - mus.getD i 0))
      I_small I_large
  else
    interp.map (fun row => row.getD ((i_intps α mus).getD itheta 0) 0)

end MuTables

/-! ## The real-valued pipeline of `calc_phase_curve` (lines 85-138)

The azimuth grid involves `π` and the rotation involves `cos`/`sin`/`sqrt`,
so this part lives over `ℝ`.  The fitted `RBFInterpolator` is abstracted as a
function `q` from a query direction to a wavelength × mu-bin matrix (the
source queries one point at a time and takes row `[0]` of the result). -/

noncomputable section RealPipeline

/-- `phi_p_grid_bord = np.linspace(0., 2.*np.pi, 11)` (line 89). -/
def phi_p_grid_bord : List ℝ := (List.range 11).map (fun k => (k : ℝ) * (2 * Real.pi) / 10)

/-- `phi_p_mean = (phi_p_grid_bord[1:]+phi_p_grid_bord[:-1])/2.` (line 90). -/
def phi_p_mean : List ℝ :=
  List.zipWith (fun a b => (a + b) / 2) (phi_p_grid_bord.drop 1) phi_p_grid_bord.dropLast

/-- `del_phi_p = np.diff(phi_p_grid_bord)` (line 91). -/
def del_phi_p : List ℝ :=
  List.zipWith (fun a b => a - b) (phi_p_grid_bord.drop 1) phi_p_grid_bord.dropLast

/-- The rotation matrix `M` of lines 109-111: the fixed axis-swap literal
`[[0,0,1],[0,1,0],[-1,0,0]]` times the x-axis rotation by `rot = -phase*2*π`. -/
def rotM (phase : ℝ) : Matrix (Fin 3) (Fin 3) ℝ :=
  (!![0, 0, 1; 0, 1, 0; -1, 0, 0] : Matrix (Fin 3) (Fin 3) ℝ) *
    !![1, 0, 0;
       0, Real.cos (-phase * 2 * Real.pi), -Real.sin (-phase * 2 * Real.pi);
       0, Real.sin (-phase * 2 * Real.pi), Real.cos (-phase * 2 * Real.pi)]

/-- Modelled from the spec: the fixed basis-realignment matrix of §4.4
(original z becomes new x, y stays y, new z is minus the original x). -/
def axisRealign : Matrix (Fin 3) (Fin 3) ℝ := !![0, 0, 1; 0, 1, 0; -1, 0, 0]

/-- Modelled from the spec: a standard rotation about the x-axis by angle θ. -/
def rotX (θ : ℝ) : Matrix (Fin 3) (Fin 3) ℝ :=
  !![1, 0, 0; 0, Real.cos θ, -Real.sin θ; 0, Real.sin θ, Real.cos θ]

/-- Elementwise addition `flux_arr + dF` of two numpy vectors of equal length
(line 136). -/
def arrAdd (a b : List ℝ) : List ℝ := List.zipWith (· + ·) a b

/-- Lines 118-135 for one quadrature cell `(iphi, itheta)`: build the cell
direction, rotate it, query the field, run the mu-band interpolation step and
weight by `mu_p_mean[itheta] * del_mu_p[itheta] * del_phi_p[iphi]`. -/
def cell_dF (mus : List ℝ) (q : ℝ × ℝ × ℝ → List (List ℝ)) (M : Matrix (Fin 3) (Fin 3) ℝ)
    (iphi itheta : ℕ) : List ℝ :=
  let mpm := (mu_p_mean ℝ).getD itheta 0
  let x_p := Real.cos (phi_p_mean.getD iphi 0) * Real.sqrt (1 - mpm ^ 2)
  let y_p := Real.sin (phi_p_mean.getD iphi 0) * Real.sqrt (1 - mpm ^ 2)
  let z_p := mpm
  let R := M.mulVec ![x_p, y_p, z_p]
  let interp := q (R 0, R 1, R 2)
  let I_use := I_use_at ℝ mus interp itheta
  I_use.map (fun v => v * mpm * (del_mu_p ℝ).getD itheta 0 * del_phi_p.getD iphi 0)

/-- `calc_phase_curve(phase, mus, mu_rad_bas)` (lines 66-138): the nested
`for iphi / for itheta` accumulation into `flux_arr`, starting from
`np.zeros(Nlambda)` with `Nlambda = len(mu_rad_bas([[0,0,0]])[0])`. -/
def calc_phase_curve (phase : ℝ) (mus : List ℝ) (mu_rad_bas : ℝ × ℝ × ℝ → List (List ℝ)) :
    List ℝ :=
  let M := rotM phase
  let Nlambda := (mu_rad_bas (0, 0, 0)).length
  (List.range phi_p_mean.length).foldl
    (fun flux iphi =>
      (List.range (mu_p_mean ℝ).length).foldl
        (fun flux2 itheta => arrAdd flux2 (cell_dF mus mu_rad_bas M iphi itheta)) flux)
    (List.replicate Nlambda 0)

/-- The fixed hemisphere-integral constant: the sum over all 100 quadrature
cells of (mu-centre × mu-width × azimuth-width). -/
def hemiSum : ℝ :=
  ((List.range 10).map (fun iphi =>
    ((List.range 10).map (fun itheta =>
      (mu_p_mean ℝ).getD itheta 0 * (del_mu_p ℝ).getD itheta 0 * del_phi_p.getD iphi 0)).sum)).sum

end RealPipeline

/-! ## The entry point `wrap_phase_curve` (lines 5-63)

Numpy arrays are modelled as a shape plus row-major flattened data.  The two
Python exception classes that can fire are the explicit
`raise IndexError(...)` of the rank checks (the spec's `InvalidShapeError`)
and the `ValueError` that numpy raises on a failed broadcast / ragged stack
and that scipy raises when the number of sample points does not match the
first axis of the data. -/

/-- A numpy array: shape and row-major flattened data. -/
structure NArr where
  shape : List ℕ
  data : List ℝ

/-- The two exception classes raised on malformed input. -/
inductive PyErr where
  | indexError : PyErr
  | valueError : PyErr
deriving DecidableEq

/-- Whether a computation completed without raising. -/
def isOkB {ε β : Type} : Except ε β → Bool
  | .ok _ => true
  | .error _ => false

/-- Lines 29-41: accept rank 2 (flatten, which leaves row-major data
unchanged) or rank 1 (use as is); any other rank raises `IndexError`. -/
def formatInput1D (a : NArr) : Except PyErr (List ℝ) :=
  if a.shape.length = 2 then .ok a.data
  else if a.shape.length = 1 then .ok a.data
  else .error .indexError

/-- Lines 43-48: accept rank 4 (flatten the two horizontal axes) or rank 3;
any other rank raises `IndexError`.  Returns (points, wavelengths, mu-bins)
dimensions together with the flattened data. -/
def formatIntensity (a : NArr) : Except PyErr (ℕ × ℕ × ℕ × List ℝ) :=
  if a.shape.length = 4 then
    .ok (a.shape.getD 0 0 * a.shape.getD 1 0, a.shape.getD 2 0, a.shape.getD 3 0, a.data)
  else if a.shape.length = 3 then
    .ok (a.shape.getD 0 0, a.shape.getD 1 0, a.shape.getD 2 0, a.data)
  else .error .indexError

/-- Numpy elementwise product of two 1-D arrays with broadcasting: equal
lengths multiply elementwise, a length-1 operand broadcasts, anything else
raises `ValueError`. -/
noncomputable def broadcastMul (a b : List ℝ) : Except PyErr (List ℝ) :=
  if a.length = b.length then .ok (List.zipWith (· * ·) a b)
  else if a.length = 1 then .ok (b.map (fun v => a.getD 0 0 * v))
  else if b.length = 1 then .ok (a.map (fun v => v * b.getD 0 0))
  else .error .valueError

/-- Row-wise pairing of three equal-length coordinate arrays. -/
def stack3 (x y z : List ℝ) : List (ℝ × ℝ × ℝ) :=
  List.zipWith (fun a bc => (a, bc.1, bc.2)) x (List.zipWith Prod.mk y z)

/-- `np.array([x, y, z]).T` (line 58): succeeds with the list of sample
directions when the three arrays have equal length, otherwise numpy rejects
the ragged stack with `ValueError`. -/
def stackT (x y z : List ℝ) : Except PyErr (List (ℝ × ℝ × ℝ)) :=
  if x.length = y.length ∧ y.length = z.length then .ok (stack3 x y z)
  else .error .valueError

/-- Lines 29-58 of `wrap_phase_curve`: format the inputs, transform to
Cartesian coordinates and build the interpolator.  The scipy
`RBFInterpolator` is abstracted by the `fit` parameter (given the sample
directions and the (points, wavelengths, mu-bins)-shaped data it returns the
fitted query function); its constructor's check that the first axis of the
data matches the number of points is modelled explicitly. -/
noncomputable def buildField
    (fit : List (ℝ × ℝ × ℝ) → ℕ → ℕ → ℕ → List ℝ → (ℝ × ℝ × ℝ → List (List ℝ)))
    (lon lat intensity : NArr) : Except PyErr (ℝ × ℝ × ℝ → List (List ℝ)) :=
  match formatInput1D lon with
  | .error e => .error e
  | .ok lonF =>
    match formatInput1D lat with
    | .error e => .error e
    | .ok latF =>
      match formatIntensity intensity with
      | .error e => .error e
      | .ok (M, N, D, dat) =>
        let phi := lonF.map (fun v => v / 180 * Real.pi)
        let theta := latF.map (fun v => (v + 90) / 180 * Real.pi)
        match broadcastMul (phi.map Real.cos) (theta.map Real.sin) with
        | .error e => .error e
        | .ok x =>
          match broadcastMul (phi.map Real.sin) (theta.map Real.sin) with
          | .error e => .error e
          | .ok y =>
            let z := theta.map Real.cos
            match stackT x y z with
            | .error e => .error e
            | .ok points =>
              if M = points.length then .ok (fit points M N D dat)
              else .error .valueError

/-- `wrap_phase_curve(phases, lon, lat, mus, intensity)` (lines 5-63): build
the field, then map `calc_phase_curve` over the phases in input order. -/
noncomputable def wrap_phase_curve
    (fit : List (ℝ × ℝ × ℝ) → ℕ → ℕ → ℕ → List ℝ → (ℝ × ℝ × ℝ → List (List ℝ)))
    (phases : List ℝ) (lon lat : NArr) (mus : List ℝ) (intensity : NArr) :
    Except PyErr (List (List ℝ)) :=
  match buildField fit lon lat intensity with
  | .error e => .error e
  | .ok mu_rad_bas => .ok (phases.map (fun phase => calc_phase_curve phase mus mu_rad_bas))

/-- Swap the entries at positions `i` and `j` of a list (used to state the
phase-reordering property). -/
def swapAt' {β : Type} (l : List β) (i j : ℕ) (d : β) : List β :=
  (l.set i (l.getD j d)).set j (l.getD i d)

/-- A concrete stand-in interpolator used in closed witnesses: it returns the
all-ones matrix of the fitted data's (wavelengths, mu-bins) shape at every
query point. -/
noncomputable def replFit :
    List (ℝ × ℝ × ℝ) → ℕ → ℕ → ℕ → List ℝ → (ℝ × ℝ × ℝ → List (List ℝ)) :=
  fun _ _ N D _ _ => List.replicate N (List.replicate D 1)

/-! ## Generic list lemmas -/

theorem appendEach_succ {β : Type} (f : ℕ → List β) (n : ℕ) :
    appendEach f (n + 1) = appendEach f n ++ f n := rfl

theorem appendEach_congr {β : Type} {f g : ℕ → List β} {n : ℕ}
    (h : ∀ m < n, f m = g m) : appendEach f n = appendEach g n := by
  induction n with
  | zero => rfl
  | succ n ih =>
    rw [appendEach_succ, appendEach_succ, ih (fun m hm => h m (Nat.lt_succ_of_lt hm)),
      h n (Nat.lt_succ_self n)]

theorem appendEach_const {β : Type} (f : ℕ → List β) (n k : ℕ) (a : β)
    (h : ∀ m < n, f m = List.replicate k a) :
    appendEach f n = List.replicate (n * k) a := by
  induction n with
  | zero => simp [appendEach]
  | succ n ih =>
    rw [appendEach_succ, ih (fun m hm => h m (Nat.lt_succ_of_lt hm)), h n (Nat.lt_succ_self n),
      ← List.replicate_add, ← Nat.succ_mul]

theorem appendEach_split {β : Type} (f : ℕ → List β) (m n : ℕ) :
    appendEach f (m + n) = appendEach f m ++ appendEach (fun i => f (m + i)) n := by
  induction n with
  | zero => simp [appendEach]
  | succ n ih =>
    rw [← Nat.add_assoc, appendEach_succ, ih, appendEach_succ, List.append_assoc]

theorem appendEach_eq_nil {β : Type} (f : ℕ → List β) (n : ℕ)
    (h : ∀ m < n, f m = []) : appendEach f n = [] := by
  induction n with
  | zero => rfl
  | succ n ih =>
    rw [appendEach_succ, ih (fun m hm => h m (Nat.lt_succ_of_lt hm)), h n (Nat.lt_succ_self n)]
    rfl

theorem appendEach_eq_single {β : Type} (f : ℕ → List β) (n j : ℕ) (v : List β)
    (hj : j < n) (hfj : f j = v) (h : ∀ m < n, m ≠ j → f m = []) :
    appendEach f n = v := by
  induction n with
  | zero => omega
  | succ n ih =>
    rcases Nat.lt_succ_iff_lt_or_eq.mp hj with hlt | heq
    · rw [appendEach_succ, ih hlt (fun m hm hmj => h m (Nat.lt_succ_of_lt hm) hmj),
        h n (Nat.lt_succ_self n) (by omega), List.append_nil]
    · subst heq
      rw [appendEach_succ, appendEach_eq_nil f j (fun m hm => h m (Nat.lt_succ_of_lt hm) (by omega)),
        List.nil_append, hfj]

theorem appendEach_length {β : Type} (f : ℕ → List β) (n k : ℕ)
    (h : ∀ m < n, (f m).length = k) : (appendEach f n).length = n * k := by
  induction n with
  | zero => simp [appendEach]
  | succ n ih =>
    rw [appendEach_succ, List.length_append, ih (fun m hm => h m (Nat.lt_succ_of_lt hm)),
      h n (Nat.lt_succ_self n), Nat.succ_mul]

theorem length_appendEach_ge {β : Type} (f : ℕ → List β) (n : ℕ)
    (h : ∀ m < n, f m ≠ []) : n ≤ (appendEach f n).length := by
  induction n with
  | zero => simp
  | succ n ih =>
    rw [appendEach_succ, List.length_append]
    have h1 := ih (fun m hm => h m (Nat.lt_succ_of_lt hm))
    have h2 : 0 < (f n).length := List.length_pos.mpr (h n (Nat.lt_succ_self n))
    omega

theorem getD_replicate' {β : Type} (a d : β) {n k : ℕ} (h : k < n) :
    (List.replicate n a).getD k d = a := by
  rw [List.getD_eq_getElem _ _ (by simpa using h)]
  exact List.getElem_replicate ..

theorem getD_map_of_lt {β γ : Type} (f : β → γ) (l : List β) (n : ℕ) (d : γ) (d' : β)
    (h : n < l.length) : (l.map f).getD n d = f (l.getD n d') := by
  rw [List.getD_eq_getElem _ _ (by simpa using h), List.getD_eq_getElem _ _ h]
  exact List.getElem_map ..

theorem getD_mem_of_lt {β : Type} (l : List β) (n : ℕ) (d : β) (h : n < l.length) :
    l.getD n d ∈ l := by
  rw [List.getD_eq_getElem _ _ h]
  exact List.getElem_mem ..

/-! ## Values of the quadrature mu grid -/

theorem mu_p_mean_eq (α : Type) [LinearOrderedField α] :
    mu_p_mean α = [19/20, 17/20, 15/20, 13/20, 11/20, 9/20, 7/20, 5/20, 3/20, 1/20] := by
  norm_num [mu_p_mean, mu_p_grid_bord, linspace_0_1_11, List.range_succ]

theorem del_mu_p_eq (α : Type) [LinearOrderedField α] :
    del_mu_p α = List.replicate 10 (1/10) := by
  norm_num [del_mu_p, mu_p_grid_bord, linspace_0_1_11, List.range_succ, List.replicate_succ]

theorem mu_p_mean_length (α : Type) [LinearOrderedField α] : (mu_p_mean α).length = 10 := by
  rw [mu_p_mean_eq]
  rfl

theorem phi_p_grid_bord_length : phi_p_grid_bord.length = 11 := rfl

theorem phi_p_mean_length : phi_p_mean.length = 10 := rfl

theorem mu_p_mean_getD (α : Type) [LinearOrderedField α] {i : ℕ} (h : i < 10) :
    (mu_p_mean α).getD i 0 = (19 - 2 * (i : α)) / 20 := by
  rw [mu_p_mean_eq]
  interval_cases i <;> norm_num

theorem mu_p_mean_anti (α : Type) [LinearOrderedField α] {i j : ℕ} (hij : i ≤ j) (hj : j < 10) :
    (mu_p_mean α).getD j 0 ≤ (mu_p_mean α).getD i 0 := by
  rw [mu_p_mean_getD α (lt_of_le_of_lt hij hj), mu_p_mean_getD α hj]
  have hc : (i : α) ≤ (j : α) := Nat.cast_le.mpr hij
  linarith

theorem mu_p_mean_le (α : Type) [LinearOrderedField α] (i : ℕ) :
    (mu_p_mean α).getD i 0 ≤ 19/20 := by
  by_cases h : i < 10
  · rw [mu_p_mean_getD α h]
    have hc : (0 : α) ≤ (i : α) := Nat.cast_nonneg i
    linarith
  · rw [List.getD_eq_default _ _ (by rw [mu_p_mean_length]; omega)]
    norm_num

/-! ## The three branches of the lookup-table inner loop -/

theorem sorted_getD_lt (α : Type) [LinearOrderedField α] (mus : List α)
    (hmono : mus.Chain' (· < ·)) {i j : ℕ} (hij : i < j) (hj : j < mus.length) :
    mus.getD i 0 < mus.getD j 0 := by
  have hp := List.chain'_iff_pairwise.mp hmono
  have hg := List.pairwise_iff_get.mp hp ⟨i, lt_trans hij hj⟩ ⟨j, hj⟩ hij
  rw [List.getD_eq_getElem _ _ (lt_trans hij hj), List.getD_eq_getElem _ _ hj]
  simpa using hg

theorem bracketHits_low (α : Type) [LinearOrderedField α] (mus : List α) (m : α)
    (h : m ≤ mus.getD 0 0) :
    bracketHits α mus m = List.replicate (mus.length - 1) (false, 0) := by
  unfold bracketHits
  have := appendEach_const
    (fun jmu => if m ≤ mus.getD 0 0 then [(false, 0)]
      else if mus.getD (mus.length - 1) 0 < m then [(false, mus.length - 1)]
      else if mus.getD jmu 0 < m ∧ m ≤ mus.getD (jmu + 1) 0 then [(true, jmu)]
      else []) (mus.length - 1) 1 (false, 0) (fun k _ => by simp only [if_pos h]; rfl)
  simpa using this

theorem bracketHits_high (α : Type) [LinearOrderedField α] (mus : List α) (m : α)
    (h1 : ¬ m ≤ mus.getD 0 0) (h2 : mus.getD (mus.length - 1) 0 < m) :
    bracketHits α mus m = List.replicate (mus.length - 1) (false, mus.length - 1) := by
  unfold bracketHits
  have := appendEach_const
    (fun jmu => if m ≤ mus.getD 0 0 then [(false, 0)]
      else if mus.getD (mus.length - 1) 0 < m then [(false, mus.length - 1)]
      else if mus.getD jmu 0 < m ∧ m ≤ mus.getD (jmu + 1) 0 then [(true, jmu)]
      else []) (mus.length - 1) 1 (false, mus.length - 1)
    (fun k _ => by simp only [if_neg h1, if_pos h2]; rfl)
  simpa using this

theorem bracket_exists (α : Type) [LinearOrderedField α] (mus : List α) (m : α)
    (h2 : 2 ≤ mus.length) (hlo : mus.getD 0 0 < m) (hhi : m ≤ mus.getD (mus.length - 1) 0) :
    ∃ j, j + 1 ≤ mus.length - 1 ∧ mus.getD j 0 < m ∧ m ≤ mus.getD (j + 1) 0 := by
  classical
  have hQ : ∃ j, m ≤ mus.getD (j + 1) 0 := by
    refine ⟨mus.length - 2, ?_⟩
    have he : mus.length - 2 + 1 = mus.length - 1 := by omega
    rw [he]
    exact hhi
  refine ⟨Nat.find hQ, ?_, ?_, Nat.find_spec hQ⟩
  · have := Nat.find_min' hQ (by
      have he : mus.length - 2 + 1 = mus.length - 1 := by omega
      rw [he]
      exact hhi)
    omega
  · cases hfind : Nat.find hQ with
    | zero => exact hlo
    | succ k =>
      have hk := Nat.find_min hQ (show k < Nat.find hQ from by rw [hfind]; exact Nat.lt_succ_self k)
      push_neg at hk
      exact hk

theorem bracket_unique (α : Type) [LinearOrderedField α] (mus : List α) (m : α)
    (hmono : mus.Chain' (· < ·)) {j k : ℕ}
    (hj1 : j + 1 < mus.length) (hjhi : m ≤ mus.getD (j + 1) 0)
    (hk1 : k + 1 < mus.length) (hklo : mus.getD k 0 < m) (hkhi : m ≤ mus.getD (k + 1) 0)
    (hjlo : mus.getD j 0 < m) : j = k := by
  by_contra hne
  rcases lt_or_gt_of_ne hne with hlt | hgt
  · have hle : mus.getD (j + 1) 0 ≤ mus.getD k 0 := by
      rcases Nat.lt_or_ge (j + 1) k with hl | hge
      · exact le_of_lt (sorted_getD_lt α mus hmono hl (by omega))
      · have he : j + 1 = k := by omega
        rw [he]
    linarith
  · have hle : mus.getD (k + 1) 0 ≤ mus.getD j 0 := by
      rcases Nat.lt_or_ge (k + 1) j with hl | hge
      · exact le_of_lt (sorted_getD_lt α mus hmono hl (by omega))
      · have he : k + 1 = j := by omega
        rw [he]
    linarith

theorem bracketHits_interior (α : Type) [LinearOrderedField α] (mus : List α) (m : α)
    (hmono : mus.Chain' (· < ·)) (h2 : 2 ≤ mus.length)
    (h1 : ¬ m ≤ mus.getD 0 0) (hhi : ¬ mus.getD (mus.length - 1) 0 < m) :
    ∃ j, j + 1 ≤ mus.length - 1 ∧ mus.getD j 0 < m ∧ m ≤ mus.getD (j + 1) 0 ∧
      bracketHits α mus m = [(true, j)] ∧
      (∀ j', j' + 1 < mus.length → mus.getD j' 0 < m → m ≤ mus.getD (j' + 1) 0 → j' = j) := by
  obtain ⟨j, hj1, hjlo, hjhi⟩ := bracket_exists α mus m h2 (not_le.mp h1) (not_lt.mp hhi)
  refine ⟨j, hj1, hjlo, hjhi, ?_, ?_⟩
  · unfold bracketHits
    refine appendEach_eq_single _ _ j _ (by omega) (by rw [if_neg h1, if_neg hhi, if_pos ⟨hjlo, hjhi⟩])
      (fun k hk hkj => ?_)
    rw [if_neg h1, if_neg hhi, if_neg]
    rintro ⟨hklo, hkhi⟩
    exact hkj (bracket_unique α mus m hmono (by omega) hkhi (by omega) hjlo hjhi hklo)
  · intro j' hj'1 hj'lo hj'hi
    exact bracket_unique α mus m hmono hj'1 hj'hi (by omega) hjlo hjhi hj'lo

/-! ## Position analysis of the flattened lookup lists

The double loop of lines 96-107 appends `len(mus)-1` entries per quadrature
centre in the clamp branches but exactly one entry in the bracket branch, so
entry `itheta` of the flattened lists corresponds to centre `itheta` only
when every earlier centre contributed exactly one entry. -/

theorem intpEntries_getD_high (α : Type) [LinearOrderedField α] (mus : List α) {itheta : ℕ}
    (h2 : 2 ≤ mus.length) (hmono : mus.Chain' (· < ·)) (hth : itheta < 10)
    (hm : mus.getD (mus.length - 1) 0 < (mu_p_mean α).getD itheta 0) :
    itheta < (intpEntries α mus).length ∧
      (intpEntries α mus).getD itheta (false, 0) = (false, mus.length - 1) := by
  have h0 : mus.getD 0 0 < mus.getD (mus.length - 1) 0 :=
    sorted_getD_lt α mus hmono (by omega) (by omega)
  have hpref : ∀ k < itheta + 1, bracketHits α mus ((mu_p_mean α).getD k 0)
      = List.replicate (mus.length - 1) (false, mus.length - 1) := by
    intro k hk
    have hge : (mu_p_mean α).getD itheta 0 ≤ (mu_p_mean α).getD k 0 :=
      mu_p_mean_anti α (by omega) hth
    have hmk : mus.getD (mus.length - 1) 0 < (mu_p_mean α).getD k 0 := lt_of_lt_of_le hm hge
    exact bracketHits_high α mus _ (by push_neg; linarith) hmk
  have hsplit : intpEntries α mus
      = List.replicate ((itheta + 1) * (mus.length - 1)) (false, mus.length - 1)
        ++ appendEach
            (fun i => bracketHits α mus ((mu_p_mean α).getD (itheta + 1 + i) 0)) (9 - itheta) := by
    unfold intpEntries
    rw [mu_p_mean_length, show 10 = (itheta + 1) + (9 - itheta) from by omega, appendEach_split]
    congr 1
    exact appendEach_const _ _ _ _ hpref
  have hlt : itheta < (itheta + 1) * (mus.length - 1) := by
    have h1 : itheta + 1 ≤ (itheta + 1) * (mus.length - 1) :=
      Nat.le_mul_of_pos_right _ (by omega)
    omega
  constructor
  · rw [hsplit, List.length_append, List.length_replicate]
    omega
  · rw [hsplit, List.getD_append _ _ _ _ (by rw [List.length_replicate]; exact hlt),
      getD_replicate' _ _ hlt]

theorem intpEntries_getD_low (α : Type) [LinearOrderedField α] (mus : List α) {itheta : ℕ}
    (h2 : 2 ≤ mus.length) (hmono : mus.Chain' (· < ·)) (hth : itheta < 10)
    (hnohigh : (19 : α)/20 ≤ mus.getD (mus.length - 1) 0)
    (hm : (mu_p_mean α).getD itheta 0 ≤ mus.getD 0 0) :
    itheta < (intpEntries α mus).length ∧
      (intpEntries α mus).getD itheta (false, 0) = (false, 0) := by
  classical
  have hex : ∃ k, (mu_p_mean α).getD k 0 ≤ mus.getD 0 0 := ⟨itheta, hm⟩
  have hsle : Nat.find hex ≤ itheta := Nat.find_min' hex hm
  have hsP : (mu_p_mean α).getD (Nat.find hex) 0 ≤ mus.getD 0 0 := Nat.find_spec hex
  have hpre : ∀ k < Nat.find hex,
      (bracketHits α mus ((mu_p_mean α).getD k 0)).length = 1 := by
    intro k hk
    have h1 : ¬ (mu_p_mean α).getD k 0 ≤ mus.getD 0 0 := Nat.find_min hex hk
    have hh : ¬ mus.getD (mus.length - 1) 0 < (mu_p_mean α).getD k 0 := by
      push_neg
      exact le_trans (mu_p_mean_le α k) hnohigh
    obtain ⟨j, _, _, _, hsing, _⟩ := bracketHits_interior α mus _ hmono h2 h1 hh
    rw [hsing]
    rfl
  have hpost : ∀ i < 10 - Nat.find hex,
      bracketHits α mus ((mu_p_mean α).getD (Nat.find hex + i) 0)
        = List.replicate (mus.length - 1) (false, 0) := by
    intro i hi
    have hle : (mu_p_mean α).getD (Nat.find hex + i) 0 ≤ (mu_p_mean α).getD (Nat.find hex) 0 :=
      mu_p_mean_anti α (by omega) (by omega)
    exact bracketHits_low α mus _ (le_trans hle hsP)
  have hsplit : intpEntries α mus
      = appendEach (fun imu => bracketHits α mus ((mu_p_mean α).getD imu 0)) (Nat.find hex)
        ++ List.replicate ((10 - Nat.find hex) * (mus.length - 1)) (false, 0) := by
    unfold intpEntries
    rw [mu_p_mean_length]
    nth_rewrite 1 [show (10 : ℕ) = Nat.find hex + (10 - Nat.find hex) from by omega]
    rw [appendEach_split]
    congr 1
    exact appendEach_const _ _ _ _ hpost
  have hplen : (appendEach (fun imu => bracketHits α mus ((mu_p_mean α).getD imu 0))
      (Nat.find hex)).length = Nat.find hex := by
    have := appendEach_length _ (Nat.find hex) 1 hpre
    omega
  have hrep : itheta - Nat.find hex < (10 - Nat.find hex) * (mus.length - 1) := by
    have h1 : 10 - Nat.find hex ≤ (10 - Nat.find hex) * (mus.length - 1) :=
      Nat.le_mul_of_pos_right _ (by omega)
    omega
  constructor
  · rw [hsplit, List.length_append, hplen, List.length_replicate]
    omega
  · rw [hsplit, List.getD_append_right _ _ _ _ (by rw [hplen]; exact hsle)]
    rw [hplen]
    exact getD_replicate' _ _ hrep

theorem intpEntries_getD_interior (α : Type) [LinearOrderedField α] (mus : List α) {itheta : ℕ}
    (h2 : 2 ≤ mus.length) (hmono : mus.Chain' (· < ·)) (hth : itheta < 10)
    (hnohigh : (19 : α)/20 ≤ mus.getD (mus.length - 1) 0)
    (hm : mus.getD 0 0 < (mu_p_mean α).getD itheta 0) :
    ∃ j, j + 1 ≤ mus.length - 1 ∧ mus.getD j 0 < (mu_p_mean α).getD itheta 0 ∧
      (mu_p_mean α).getD itheta 0 ≤ mus.getD (j + 1) 0 ∧
      itheta < (intpEntries α mus).length ∧
      (intpEntries α mus).getD itheta (false, 0) = (true, j) ∧
      (∀ j', j' + 1 < mus.length → mus.getD j' 0 < (mu_p_mean α).getD itheta 0 →
        (mu_p_mean α).getD itheta 0 ≤ mus.getD (j' + 1) 0 → j' = j) := by
  have hh : ¬ mus.getD (mus.length - 1) 0 < (mu_p_mean α).getD itheta 0 := by
    push_neg
    exact le_trans (mu_p_mean_le α itheta) hnohigh
  obtain ⟨j, hj1, hjlo, hjhi, hsing, huniq⟩ :=
    bracketHits_interior α mus _ hmono h2 (not_le.mpr hm) hh
  have hpre : ∀ k < itheta,
      (bracketHits α mus ((mu_p_mean α).getD k 0)).length = 1 := by
    intro k hk
    have hgt : mus.getD 0 0 < (mu_p_mean α).getD k 0 :=
      lt_of_lt_of_le hm (mu_p_mean_anti α (by omega) hth)
    have hhk : ¬ mus.getD (mus.length - 1) 0 < (mu_p_mean α).getD k 0 := by
      push_neg
      exact le_trans (mu_p_mean_le α k) hnohigh
    obtain ⟨jk, _, _, _, hsingk, _⟩ :=
      bracketHits_interior α mus _ hmono h2 (not_le.mpr hgt) hhk
    rw [hsingk]
    rfl
  have hsplit : intpEntries α mus
      = appendEach (fun imu => bracketHits α mus ((mu_p_mean α).getD imu 0)) itheta
        ++ (bracketHits α mus ((mu_p_mean α).getD itheta 0)
          ++ appendEach
            (fun i => bracketHits α mus ((mu_p_mean α).getD (itheta + 1 + i) 0)) (9 - itheta)) := by
    unfold intpEntries
    rw [mu_p_mean_length]
    nth_rewrite 1 [show (10 : ℕ) = itheta + (10 - itheta) from by omega]
    rw [appendEach_split]
    congr 1
    rw [show 10 - itheta = 1 + (9 - itheta) from by omega, appendEach_split]
    congr 1
    exact appendEach_congr (fun m _ => by
      have he : itheta + (1 + m) = itheta + 1 + m := by omega
      rw [he])
  have hplen : (appendEach (fun imu => bracketHits α mus ((mu_p_mean α).getD imu 0))
      itheta).length = itheta := by
    have := appendEach_length _ itheta 1 hpre
    omega
  refine ⟨j, hj1, hjlo, hjhi, ?_, ?_, huniq⟩
  · rw [hsplit, List.length_append, hplen, List.length_append, hsing, List.length_singleton]
    omega
  · rw [hsplit, List.getD_append_right _ _ _ _ (le_of_eq hplen), hplen, Nat.sub_self, hsing]
    rfl

/-! ## Reduction of the interpolation step through a table entry -/

theorem I_use_at_entry_false (α : Type) [LinearOrderedField α] (mus : List α)
    (interp : List (List α)) {itheta i : ℕ}
    (hlen : itheta < (intpEntries α mus).length)
    (hval : (intpEntries α mus).getD itheta (false, 0) = (false, i)) :
    I_use_at α mus interp itheta = interp.map (fun row => row.getD i 0) := by
  have hdo : (do_intp α mus).getD itheta false = false := by
    unfold do_intp
    rw [getD_map_of_lt Prod.fst _ _ _ (false, 0) hlen, hval]
  have hii : (i_intps α mus).getD itheta 0 = i := by
    unfold i_intps
    rw [getD_map_of_lt Prod.snd _ _ _ (false, 0) hlen, hval]
  unfold I_use_at
  simp only [hdo, hii]
  simp

theorem I_use_at_entry_true (α : Type) [LinearOrderedField α] (mus : List α)
    (interp : List (List α)) {itheta j : ℕ}
    (hlen : itheta < (intpEntries α mus).length)
    (hval : (intpEntries α mus).getD itheta (false, 0) = (true, j)) :
    I_use_at α mus interp itheta =
      List.zipWith
        (fun s l => s + (l - s) / (mus.getD (j + 1) 0 - mus.getD j 0) *
          ((mu_p_mean α).getD itheta 0 - mus.getD j 0))
        (interp.map (fun row => row.getD j 0)) (interp.map (fun row => row.getD (j + 1) 0)) := by
  have hdo : (do_intp α mus).getD itheta false = true := by
    unfold do_intp
    rw [getD_map_of_lt Prod.fst _ _ _ (false, 0) hlen, hval]
  have hii : (i_intps α mus).getD itheta 0 = j := by
    unfold i_intps
    rw [getD_map_of_lt Prod.snd _ _ _ (false, 0) hlen, hval]
  unfold I_use_at
  simp only [hdo, hii]
  simp

/-! ## Claims C1, C3, C10: the mu-band interpolation step -/

/-- C1 (counterexample): with strictly increasing sample mus `[1/2, 3/5, 7/10]`,
the quadrature centre `0.45` (itheta = 5) is at or below the smallest sample mu
`1/2`, yet the interpolation step returns the LAST bin's intensity `[30]`
rather than the first bin's `[10]`: the precomputed lookup lists are misaligned
because the three clamp-high centres each appended two entries. -/
theorem C1_counterexample :
    2 ≤ ([1/2, 3/5, 7/10] : List ℚ).length
    ∧ ([1/2, 3/5, 7/10] : List ℚ).Chain' (· < ·)
    ∧ (mu_p_mean ℚ).getD 5 0 ≤ ([1/2, 3/5, 7/10] : List ℚ).getD 0 0
    ∧ I_use_at ℚ [1/2, 3/5, 7/10] [[10, 20, 30]] 5 = [30]
    ∧ ([[10, 20, 30]] : List (List ℚ)).map (fun row => row.getD 0 0) = [10]
    ∧ ([30] : List ℚ) ≠ [10] := by
  refine ⟨by norm_num, by norm_num [List.chain'_cons], ?_, ?_, by norm_num, by norm_num⟩
  · rw [mu_p_mean_eq]
    norm_num
  · norm_num [I_use_at, do_intp, i_intps, intpEntries, bracketHits, appendEach, mu_p_mean,
      mu_p_grid_bord, linspace_0_1_11, List.range_succ]

/-- C1 (amended): the clamp-high half of the claim holds as stated: every
quadrature centre strictly above the largest sample mu uses exactly the last
bin's intensity vector.  The clamp-low half holds only under the proviso that
no quadrature centre exceeds the largest sample mu (equivalently
`mus[-1] ≥ 19/20`, the largest centre); otherwise the misaligned lookup lists
can hand a clamp-low centre a different bin (see the counterexample). -/
theorem C1_amended_clamping (α : Type) [LinearOrderedField α] (mus : List α)
    (interp : List (List α)) (itheta : ℕ)
    (h2 : 2 ≤ mus.length) (hmono : mus.Chain' (· < ·)) (hth : itheta < 10) :
    (mus.getD (mus.length - 1) 0 < (mu_p_mean α).getD itheta 0 →
      I_use_at α mus interp itheta = interp.map (fun row => row.getD (mus.length - 1) 0))
    ∧ ((19 : α)/20 ≤ mus.getD (mus.length - 1) 0 →
      (mu_p_mean α).getD itheta 0 ≤ mus.getD 0 0 →
      I_use_at α mus interp itheta = interp.map (fun row => row.getD 0 0)) := by
  constructor
  · intro hm
    obtain ⟨hlen, hval⟩ := intpEntries_getD_high α mus h2 hmono hth hm
    exact I_use_at_entry_false α mus interp hlen hval
  · intro hnohigh hm
    obtain ⟨hlen, hval⟩ := intpEntries_getD_low α mus h2 hmono hth hnohigh hm
    exact I_use_at_entry_false α mus interp hlen hval

/-- C1 (witness): at `mus = [1/10, 1/5]` the centre `0.95` is clamp-high and
gets the last bin `[7]`; at `mus = [9/10, 1]` the centre `0.05` is clamp-low
(and no centre is clamp-high) and gets the first bin `[3]`. -/
theorem C1_amended_witness :
    I_use_at ℚ [1/10, 1/5] [[3, 7]] 0 = [7] ∧ I_use_at ℚ [9/10, 1] [[3, 7]] 9 = [3] := by
  constructor
  · have h := (C1_amended_clamping ℚ [1/10, 1/5] [[3, 7]] 0 (by norm_num)
      (by norm_num [List.chain'_cons]) (by norm_num)).1
      (by rw [mu_p_mean_eq]; norm_num)
    simpa using h
  · have h := (C1_amended_clamping ℚ [9/10, 1] [[3, 7]] 9 (by norm_num)
      (by norm_num [List.chain'_cons]) (by norm_num)).2
      (by norm_num) (by rw [mu_p_mean_eq]; norm_num)
    simpa using h

/-- C3 (counterexample): with strictly increasing sample mus `[1/2, 3/5, 7/10]`,
the quadrature centre `0.65` (itheta = 3) is strictly inside the sample range
with unique bracket `(1, 2)`, and the claimed interpolation formula gives
`20 + (30-20)/(7/10-3/5)*(13/20-3/5) = 25`; but the step returns the last
bin's `[30]` because of the lookup-list misalignment. -/
theorem C3_counterexample :
    ([1/2, 3/5, 7/10] : List ℚ).Chain' (· < ·)
    ∧ ([1/2, 3/5, 7/10] : List ℚ).getD 0 0 < (mu_p_mean ℚ).getD 3 0
    ∧ (mu_p_mean ℚ).getD 3 0 < ([1/2, 3/5, 7/10] : List ℚ).getD 2 0
    ∧ (20 : ℚ) + (30 - 20) / (7/10 - 3/5) * ((mu_p_mean ℚ).getD 3 0 - 3/5) = 25
    ∧ I_use_at ℚ [1/2, 3/5, 7/10] [[10, 20, 30]] 3 = [30]
    ∧ ([30] : List ℚ) ≠ [25] := by
  refine ⟨by norm_num [List.chain'_cons], ?_, ?_, ?_, ?_, by norm_num⟩
  · rw [mu_p_mean_eq]
    norm_num
  · rw [mu_p_mean_eq]
    norm_num
  · rw [mu_p_mean_eq]
    norm_num
  · norm_num [I_use_at, do_intp, i_intps, intpEntries, bracketHits, appendEach, mu_p_mean,
      mu_p_grid_bord, linspace_0_1_11, List.range_succ]

/-- C3 (amended): provided additionally that no quadrature centre exceeds the
largest sample mu (`mus[-1] ≥ 19/20`), the interior interpolation works as the
claim states: the unique bracket `(j, j+1)` with `mus[j] < m ≤ mus[j+1]` is
located and `I_j + (I_{j+1} - I_j) * (m - mus[j]) / (mus[j+1] - mus[j])` is
returned per wavelength, and an intensity that is an exact linear function of
mu is reproduced exactly at the query centre.  Without the proviso the
misaligned lookup lists break this (see the counterexample). -/
theorem C3_amended_interior (α : Type) [LinearOrderedField α] (mus : List α)
    (interp : List (List α)) (itheta : ℕ)
    (h2 : 2 ≤ mus.length) (hmono : mus.Chain' (· < ·)) (hth : itheta < 10)
    (hnohigh : (19 : α)/20 ≤ mus.getD (mus.length - 1) 0)
    (hm : mus.getD 0 0 < (mu_p_mean α).getD itheta 0) :
    ∃ j, j + 1 < mus.length ∧ mus.getD j 0 < (mu_p_mean α).getD itheta 0 ∧
      (mu_p_mean α).getD itheta 0 ≤ mus.getD (j + 1) 0 ∧
      (∀ j', j' + 1 < mus.length → mus.getD j' 0 < (mu_p_mean α).getD itheta 0 →
        (mu_p_mean α).getD itheta 0 ≤ mus.getD (j' + 1) 0 → j' = j) ∧
      I_use_at α mus interp itheta =
        List.zipWith
          (fun s l => s + (l - s) / (mus.getD (j + 1) 0 - mus.getD j 0) *
            ((mu_p_mean α).getD itheta 0 - mus.getD j 0))
          (interp.map (fun row => row.getD j 0)) (interp.map (fun row => row.getD (j + 1) 0)) ∧
      (∀ (A B : ℕ → α) (NW : ℕ),
        interp = (List.range NW).map (fun w => mus.map (fun mu => A w + B w * mu)) →
        I_use_at α mus interp itheta
          = (List.range NW).map (fun w => A w + B w * (mu_p_mean α).getD itheta 0)) := by
  obtain ⟨j, hj1, hjlo, hjhi, hlen, hval, huniq⟩ :=
    intpEntries_getD_interior α mus h2 hmono hth hnohigh hm
  have hfor := I_use_at_entry_true α mus interp hlen hval
  refine ⟨j, by omega, hjlo, hjhi, huniq, hfor, ?_⟩
  intro A B NW hinterp
  have hjlen : j < mus.length := by omega
  have hj1len : j + 1 < mus.length := by omega
  have hΔ : mus.getD (j + 1) 0 - mus.getD j 0 ≠ 0 :=
    sub_ne_zero.mpr (ne_of_gt (sorted_getD_lt α mus hmono (Nat.lt_succ_self j) hj1len))
  subst hinterp
  rw [hfor]
  simp only [List.map_map, Function.comp_def]
  rw [List.map_congr_left (fun w _ =>
    getD_map_of_lt (fun mu => A w + B w * mu) mus j 0 0 hjlen)]
  rw [List.map_congr_left (fun w _ =>
    getD_map_of_lt (fun mu => A w + B w * mu) mus (j + 1) 0 0 hj1len)]
  rw [List.zipWith_map_left, List.zipWith_map_right, List.zipWith_same]
  refine List.map_congr_left (fun w _ => ?_)
  simp only []
  set a := mus.getD j 0 with ha
  set b := mus.getD (j + 1) 0 with hb
  set mm := (mu_p_mean α).getD itheta 0 with hmm
  have hkey : A w + B w * b - (A w + B w * a) = B w * (b - a) := by ring
  rw [hkey, mul_div_assoc, div_self hΔ, mul_one]
  ring

/-- C3 (witness): at `mus = [0, 1]` with the intensity `5 + 4*mu` linear in
mu, the interpolation step reproduces the linear function at the interior
centre `0.95`. -/
theorem C3_amended_witness :
    I_use_at ℚ [0, 1]
      ((List.range 1).map (fun _ => ([0, 1] : List ℚ).map (fun mu => 5 + 4 * mu))) 0
      = (List.range 1).map (fun _ => 5 + 4 * (mu_p_mean ℚ).getD 0 0) := by
  obtain ⟨j, _, _, _, _, _, hlin⟩ :=
    C3_amended_interior ℚ [0, 1]
      ((List.range 1).map (fun _ => ([0, 1] : List ℚ).map (fun mu => 5 + 4 * mu))) 0
      (by norm_num) (by norm_num [List.chain'_cons]) (by norm_num)
      (by norm_num) (by rw [mu_p_mean_eq]; norm_num)
  exact hlin (fun _ => 5) (fun _ => 4) 1 rfl

/-- C10: for strictly increasing mus of length at least 2, every quadrature
centre contributes at least one entry to the lookup lists, so both have length
at least 10 and every access `do_intp[itheta]`, `i_intps[itheta]` with
`itheta < 10` is in bounds. -/
theorem C10_table_bounds (α : Type) [LinearOrderedField α] (mus : List α)
    (h2 : 2 ≤ mus.length) (hmono : mus.Chain' (· < ·)) :
    10 ≤ (do_intp α mus).length ∧ 10 ≤ (i_intps α mus).length ∧
      ∀ itheta < 10, itheta < (do_intp α mus).length ∧ itheta < (i_intps α mus).length := by
  have hne : ∀ k < 10, bracketHits α mus ((mu_p_mean α).getD k 0) ≠ [] := by
    intro k _
    by_cases hlow : (mu_p_mean α).getD k 0 ≤ mus.getD 0 0
    · rw [bracketHits_low α mus _ hlow]
      exact List.length_pos.mp (by rw [List.length_replicate]; omega)
    · by_cases hhigh : mus.getD (mus.length - 1) 0 < (mu_p_mean α).getD k 0
      · rw [bracketHits_high α mus _ hlow hhigh]
        exact List.length_pos.mp (by rw [List.length_replicate]; omega)
      · obtain ⟨j, _, _, _, hsing, _⟩ := bracketHits_interior α mus _ hmono h2 hlow hhigh
        rw [hsing]
        exact List.cons_ne_nil _ _
  have hlen : 10 ≤ (intpEntries α mus).length := by
    unfold intpEntries
    rw [mu_p_mean_length]
    exact length_appendEach_ge _ 10 hne
  have hdo : (do_intp α mus).length = (intpEntries α mus).length := List.length_map _ _
  have hii : (i_intps α mus).length = (intpEntries α mus).length := List.length_map _ _
  exact ⟨by omega, by omega, fun itheta hth => ⟨by omega, by omega⟩⟩

/-! ## Claims C5, C6: quadrature grid and rotation matrix -/

theorem axisRealign_orthonormal : axisRealign.transpose * axisRealign = 1 := by
  unfold axisRealign
  ext i j
  rw [Matrix.mul_apply]
  simp only [Matrix.transpose_apply]
  fin_cases i <;> fin_cases j <;>
    simp [Fin.sum_univ_three, Matrix.one_apply, Matrix.vecHead, Matrix.vecTail]

theorem rotX_orthonormal (θ : ℝ) : (rotX θ).transpose * rotX θ = 1 := by
  unfold rotX
  ext i j
  rw [Matrix.mul_apply]
  simp only [Matrix.transpose_apply]
  fin_cases i <;> fin_cases j <;>
    simp [Fin.sum_univ_three, Matrix.one_apply, Matrix.vecHead, Matrix.vecTail]
  all_goals ring_nf
  all_goals linarith [Real.sin_sq_add_cos_sq θ]

/-- C6: for every phase `p`, the matrix applied to the quadrature directions
equals the fixed axis-realignment matrix (original z to new x, y kept,
new z = minus original x) composed with the standard rotation about the
x-axis by `-2π p`, and this combined matrix is orthonormal. -/
theorem C6_rotation_matrix (p : ℝ) :
    rotM p = axisRealign * rotX (-(2 * Real.pi * p)) ∧
      (rotM p).transpose * rotM p = 1 := by
  have hangle : -p * 2 * Real.pi = -(2 * Real.pi * p) := by ring
  have hM : rotM p = axisRealign * rotX (-(2 * Real.pi * p)) := by
    unfold rotM axisRealign rotX
    rw [hangle]
  refine ⟨hM, ?_⟩
  rw [hM, Matrix.transpose_mul, Matrix.mul_assoc, ← Matrix.mul_assoc (rotX _).transpose,
    ← Matrix.mul_assoc, Matrix.mul_assoc _ axisRealign.transpose, axisRealign_orthonormal,
    Matrix.mul_one, rotX_orthonormal]

/-- C6 (witness): the rotation matrix at phase 0. -/
theorem C6_rotation_witness :
    rotM 0 = axisRealign * rotX (-(2 * Real.pi * 0)) ∧
      (rotM 0).transpose * rotM 0 = 1 :=
  C6_rotation_matrix 0

/-- C5: the quadrature grid is exactly 10 mu bins of equal width 1/10
partitioning [1,0] in descending order with centres at midpoints, crossed
with 10 equal azimuth bins of width 2π/10 over [0, 2π], giving 100 cells.
The grid definitions are closed constants: they take neither the phase nor
any sample data as input, so the grid is identical for every phase. -/
theorem C5_quadrature_grid :
    mu_p_grid_bord ℝ = [1, 9/10, 8/10, 7/10, 6/10, 5/10, 4/10, 3/10, 2/10, 1/10, 0]
    ∧ mu_p_mean ℝ = [19/20, 17/20, 15/20, 13/20, 11/20, 9/20, 7/20, 5/20, 3/20, 1/20]
    ∧ del_mu_p ℝ = List.replicate 10 (1/10)
    ∧ phi_p_grid_bord = [0, Real.pi/5, 2*Real.pi/5, 3*Real.pi/5, 4*Real.pi/5, Real.pi,
        6*Real.pi/5, 7*Real.pi/5, 8*Real.pi/5, 9*Real.pi/5, 2*Real.pi]
    ∧ phi_p_mean = [Real.pi/10, 3*Real.pi/10, Real.pi/2, 7*Real.pi/10, 9*Real.pi/10,
        11*Real.pi/10, 13*Real.pi/10, 3*Real.pi/2, 17*Real.pi/10, 19*Real.pi/10]
    ∧ del_phi_p = List.replicate 10 (Real.pi/5)
    ∧ (mu_p_mean ℝ).length * phi_p_mean.length = 100 := by
  have hbord : phi_p_grid_bord = [0, Real.pi/5, 2*Real.pi/5, 3*Real.pi/5, 4*Real.pi/5, Real.pi,
      6*Real.pi/5, 7*Real.pi/5, 8*Real.pi/5, 9*Real.pi/5, 2*Real.pi] := by
    norm_num [phi_p_grid_bord, List.range_succ]
    and_intros <;> ring
  have hmean : phi_p_mean = [Real.pi/10, 3*Real.pi/10, Real.pi/2, 7*Real.pi/10, 9*Real.pi/10,
      11*Real.pi/10, 13*Real.pi/10, 3*Real.pi/2, 17*Real.pi/10, 19*Real.pi/10] := by
    norm_num [phi_p_mean, phi_p_grid_bord, List.range_succ]
    and_intros <;> ring
  have hdel : del_phi_p = List.replicate 10 (Real.pi/5) := by
    norm_num [del_phi_p, phi_p_grid_bord, List.range_succ, List.replicate_succ]
    and_intros <;> ring
  refine ⟨?_, mu_p_mean_eq ℝ, del_mu_p_eq ℝ, hbord, hmean, hdel, ?_⟩
  · norm_num [mu_p_grid_bord, linspace_0_1_11, List.range_succ]
  · rw [mu_p_mean_length, hmean]
    rfl

/-! ## Constant-field flux (claim C4) -/

theorem mem_appendEach {β : Type} {x : β} {f : ℕ → List β} {n : ℕ}
    (h : x ∈ appendEach f n) : ∃ m, m < n ∧ x ∈ f m := by
  induction n with
  | zero => simp [appendEach] at h
  | succ n ih =>
    rw [appendEach_succ, List.mem_append] at h
    rcases h with h | h
    · obtain ⟨m, hm, hx⟩ := ih h
      exact ⟨m, by omega, hx⟩
    · exact ⟨n, by omega, h⟩

/-- Every index stored in the lookup lists is a valid mu-bin column, and a
bracket entry also admits the `+1` access. -/
theorem intpEntries_snd_lt (α : Type) [LinearOrderedField α] (mus : List α)
    (h2 : 2 ≤ mus.length) {e : Bool × ℕ} (he : e ∈ intpEntries α mus) :
    e.2 < mus.length ∧ (e.1 = true → e.2 + 1 < mus.length) := by
  unfold intpEntries at he
  obtain ⟨imu, _, he1⟩ := mem_appendEach he
  unfold bracketHits at he1
  obtain ⟨jmu, hjmu, he2⟩ := mem_appendEach he1
  by_cases hlow : (mu_p_mean α).getD imu 0 ≤ mus.getD 0 0
  · simp only [if_pos hlow, List.mem_singleton] at he2
    subst he2
    exact ⟨by omega, by simp⟩
  · by_cases hhigh : mus.getD (mus.length - 1) 0 < (mu_p_mean α).getD imu 0
    · simp only [if_neg hlow, if_pos hhigh, List.mem_singleton] at he2
      subst he2
      exact ⟨by omega, by simp⟩
    · by_cases hbr : mus.getD jmu 0 < (mu_p_mean α).getD imu 0
        ∧ (mu_p_mean α).getD imu 0 ≤ mus.getD (jmu + 1) 0
      · simp only [if_neg hlow, if_neg hhigh, if_pos hbr, List.mem_singleton] at he2
        subst he2
        exact ⟨by omega, fun _ => by omega⟩
      · simp only [if_neg hlow, if_neg hhigh, if_neg hbr, List.not_mem_nil] at he2

/-- The mu-band interpolation step on a constant intensity matrix returns the
constant, whichever (clamp or bracket) entry it reads. -/
theorem I_use_at_const (mus : List ℝ) (NW : ℕ) (c : ℝ) (h2 : 2 ≤ mus.length) (itheta : ℕ) :
    I_use_at ℝ mus (List.replicate NW (List.replicate mus.length c)) itheta
      = List.replicate NW c := by
  by_cases hlen : itheta < (intpEntries ℝ mus).length
  · have hmem : (intpEntries ℝ mus).getD itheta (false, 0) ∈ intpEntries ℝ mus :=
      getD_mem_of_lt _ _ _ hlen
    have hval := intpEntries_snd_lt ℝ mus h2 hmem
    have hdo : (do_intp ℝ mus).getD itheta false
        = ((intpEntries ℝ mus).getD itheta (false, 0)).1 := by
      unfold do_intp
      rw [getD_map_of_lt Prod.fst _ _ _ (false, 0) hlen]
    have hii : (i_intps ℝ mus).getD itheta 0
        = ((intpEntries ℝ mus).getD itheta (false, 0)).2 := by
      unfold i_intps
      rw [getD_map_of_lt Prod.snd _ _ _ (false, 0) hlen]
    unfold I_use_at
    cases hb : ((intpEntries ℝ mus).getD itheta (false, 0)).1 with
    | false =>
      rw [hb] at hdo
      simp only [hdo, hii, Bool.false_eq_true, if_false]
      rw [List.map_replicate, getD_replicate' _ _ hval.1]
    | true =>
      rw [hb] at hdo
      have hj1 : ((intpEntries ℝ mus).getD itheta (false, 0)).2 + 1 < mus.length := hval.2 hb
      simp only [hdo, hii, if_true]
      rw [List.map_replicate, List.map_replicate, getD_replicate' _ _ (by omega),
        getD_replicate' _ _ hj1, List.zipWith_replicate]
      simp
  · have hdo : (do_intp ℝ mus).getD itheta false = false :=
      List.getD_eq_default _ _ (by unfold do_intp; rw [List.length_map]; omega)
    have hii : (i_intps ℝ mus).getD itheta 0 = 0 :=
      List.getD_eq_default _ _ (by unfold i_intps; rw [List.length_map]; omega)
    unfold I_use_at
    simp only [hdo, hii, Bool.false_eq_true, if_false]
    rw [List.map_replicate, getD_replicate' _ _ (by omega)]

/-- One quadrature cell's contribution for a constant field. -/
theorem cell_dF_const (mus : List ℝ) (NW : ℕ) (c : ℝ) (h2 : 2 ≤ mus.length)
    (M : Matrix (Fin 3) (Fin 3) ℝ) (iphi itheta : ℕ) :
    cell_dF mus (fun _ => List.replicate NW (List.replicate mus.length c)) M iphi itheta
      = List.replicate NW (c * (mu_p_mean ℝ).getD itheta 0 * (del_mu_p ℝ).getD itheta 0
          * del_phi_p.getD iphi 0) := by
  unfold cell_dF
  simp only []
  rw [I_use_at_const mus NW c h2 itheta, List.map_replicate]

theorem foldl_congr' {β γ : Type} (l : List γ) (f g : β → γ → β) (init : β)
    (h : ∀ acc, ∀ x ∈ l, f acc x = g acc x) : l.foldl f init = l.foldl g init := by
  induction l generalizing init with
  | nil => rfl
  | cons x l ih =>
    rw [List.foldl_cons, List.foldl_cons, h init x (List.mem_cons_self x l)]
    exact ih _ (fun acc y hy => h acc y (List.mem_cons_of_mem x hy))

theorem foldl_arrAdd_replicate (NW : ℕ) (g : ℕ → ℝ) (l : List ℕ) (a : ℝ) :
    l.foldl (fun acc k => arrAdd acc (List.replicate NW (g k))) (List.replicate NW a)
      = List.replicate NW (a + (l.map g).sum) := by
  induction l generalizing a with
  | nil => simp
  | cons k l ih =>
    rw [List.foldl_cons]
    have h1 : arrAdd (List.replicate NW a) (List.replicate NW (g k))
        = List.replicate NW (a + g k) := by
      unfold arrAdd
      rw [List.zipWith_replicate]
      simp
    rw [h1, ih]
    simp [add_assoc]

/-- `calc_phase_curve` on a constant field: the flux is the constant times
the hemisphere sum, for every phase. -/
theorem calc_phase_curve_const (mus : List ℝ) (c : ℝ) (NW : ℕ) (p : ℝ)
    (h2 : 2 ≤ mus.length) :
    calc_phase_curve p mus (fun _ => List.replicate NW (List.replicate mus.length c))
      = List.replicate NW (c * hemiSum) := by
  unfold calc_phase_curve
  rw [phi_p_mean_length, mu_p_mean_length]
  simp only [List.length_replicate]
  have houter : ∀ (l : List ℕ) (a : ℝ),
      l.foldl (fun flux iphi => (List.range 10).foldl
        (fun flux2 itheta => arrAdd flux2 (cell_dF mus
          (fun _ => List.replicate NW (List.replicate mus.length c)) (rotM p) iphi itheta)) flux)
        (List.replicate NW a)
      = List.replicate NW (a + (l.map (fun iphi => ((List.range 10).map (fun itheta =>
          c * (mu_p_mean ℝ).getD itheta 0 * (del_mu_p ℝ).getD itheta 0
            * del_phi_p.getD iphi 0)).sum)).sum) := by
    intro l
    induction l with
    | nil => intro a; simp
    | cons iphi l ih =>
      intro a
      rw [List.foldl_cons]
      have hinner : (List.range 10).foldl
          (fun flux2 itheta => arrAdd flux2 (cell_dF mus
            (fun _ => List.replicate NW (List.replicate mus.length c)) (rotM p) iphi itheta))
          (List.replicate NW a)
          = List.replicate NW (a + ((List.range 10).map (fun itheta =>
              c * (mu_p_mean ℝ).getD itheta 0 * (del_mu_p ℝ).getD itheta 0
                * del_phi_p.getD iphi 0)).sum) := by
        rw [foldl_congr' (List.range 10) _
          (fun acc itheta => arrAdd acc (List.replicate NW
            (c * (mu_p_mean ℝ).getD itheta 0 * (del_mu_p ℝ).getD itheta 0
              * del_phi_p.getD iphi 0)))
          _ (fun acc x _ => by rw [cell_dF_const mus NW c h2 (rotM p) iphi x])]
        exact foldl_arrAdd_replicate NW _ (List.range 10) a
      rw [hinner, ih]
      simp only [List.map_cons, List.sum_cons]
      congr 1
      ring
  rw [houter (List.range 10) 0]
  congr 1
  rw [zero_add]
  have hfac : ∀ iphi : ℕ, ((List.range 10).map (fun itheta =>
      c * (mu_p_mean ℝ).getD itheta 0 * (del_mu_p ℝ).getD itheta 0
        * del_phi_p.getD iphi 0)).sum
      = c * ((List.range 10).map (fun itheta =>
      (mu_p_mean ℝ).getD itheta 0 * (del_mu_p ℝ).getD itheta 0
        * del_phi_p.getD iphi 0)).sum := by
    intro iphi
    rw [← List.sum_map_mul_left]
    exact congrArg List.sum (List.map_congr_left (fun x _ => by ring))
  rw [List.map_congr_left (fun iphi _ => hfac iphi), List.sum_map_mul_left]
  rfl

/-! ## The wrapper: validation, field construction and the phase loop -/

theorem formatInput1D_ok_or (a : NArr) :
    formatInput1D a = .ok a.data ∨ formatInput1D a = .error .indexError := by
  unfold formatInput1D
  by_cases h2 : a.shape.length = 2
  · rw [if_pos h2]
    exact Or.inl rfl
  · rw [if_neg h2]
    by_cases h1 : a.shape.length = 1
    · rw [if_pos h1]
      exact Or.inl rfl
    · rw [if_neg h1]
      exact Or.inr rfl

theorem formatIntensity_ok_or (a : NArr) :
    (∃ t, formatIntensity a = .ok t) ∨ formatIntensity a = .error .indexError := by
  unfold formatIntensity
  by_cases h4 : a.shape.length = 4
  · rw [if_pos h4]
    exact Or.inl ⟨_, rfl⟩
  · rw [if_neg h4]
    by_cases h3 : a.shape.length = 3
    · rw [if_pos h3]
      exact Or.inl ⟨_, rfl⟩
    · rw [if_neg h3]
      exact Or.inr rfl

/-- On well-shaped input the field construction succeeds and hands `fit` the
sample directions (as many as there are surface points). -/
theorem buildField_ok
    (fit : List (ℝ × ℝ × ℝ) → ℕ → ℕ → ℕ → List ℝ → (ℝ × ℝ × ℝ → List (List ℝ)))
    (lon lat intensity : NArr) (NW DD : ℕ) (dat : List ℝ)
    (hlon : formatInput1D lon = .ok lon.data)
    (hlat : formatInput1D lat = .ok lat.data)
    (hlen : lon.data.length = lat.data.length)
    (hint : formatIntensity intensity = .ok (lon.data.length, NW, DD, dat)) :
    ∃ points : List (ℝ × ℝ × ℝ), points.length = lon.data.length ∧
      buildField fit lon lat intensity = .ok (fit points lon.data.length NW DD dat) := by
  unfold buildField
  rw [hlon, hlat, hint]
  simp only []
  have hxcond : ((lon.data.map (fun v => v / 180 * Real.pi)).map Real.cos).length
      = ((lat.data.map (fun v => (v + 90) / 180 * Real.pi)).map Real.sin).length := by
    simp only [List.length_map]
    exact hlen
  have hycond : ((lon.data.map (fun v => v / 180 * Real.pi)).map Real.sin).length
      = ((lat.data.map (fun v => (v + 90) / 180 * Real.pi)).map Real.sin).length := by
    simp only [List.length_map]
    exact hlen
  have hx : broadcastMul ((lon.data.map (fun v => v / 180 * Real.pi)).map Real.cos)
      ((lat.data.map (fun v => (v + 90) / 180 * Real.pi)).map Real.sin)
      = .ok (List.zipWith (· * ·) ((lon.data.map (fun v => v / 180 * Real.pi)).map Real.cos)
          ((lat.data.map (fun v => (v + 90) / 180 * Real.pi)).map Real.sin)) := by
    unfold broadcastMul
    rw [if_pos hxcond]
  have hy : broadcastMul ((lon.data.map (fun v => v / 180 * Real.pi)).map Real.sin)
      ((lat.data.map (fun v => (v + 90) / 180 * Real.pi)).map Real.sin)
      = .ok (List.zipWith (· * ·) ((lon.data.map (fun v => v / 180 * Real.pi)).map Real.sin)
          ((lat.data.map (fun v => (v + 90) / 180 * Real.pi)).map Real.sin)) := by
    unfold broadcastMul
    rw [if_pos hycond]
  rw [hx, hy]
  simp only []
  set x := List.zipWith (· * ·) ((lon.data.map (fun v => v / 180 * Real.pi)).map Real.cos)
    ((lat.data.map (fun v => (v + 90) / 180 * Real.pi)).map Real.sin) with hxdef
  set y := List.zipWith (· * ·) ((lon.data.map (fun v => v / 180 * Real.pi)).map Real.sin)
    ((lat.data.map (fun v => (v + 90) / 180 * Real.pi)).map Real.sin) with hydef
  set z := (lat.data.map (fun v => (v + 90) / 180 * Real.pi)).map Real.cos with hzdef
  have hxlen : x.length = lat.data.length := by
    rw [hxdef, List.length_zipWith]
    simp only [List.length_map]
    omega
  have hylen : y.length = lat.data.length := by
    rw [hydef, List.length_zipWith]
    simp only [List.length_map]
    omega
  have hzlen : z.length = lat.data.length := by
    rw [hzdef]
    simp only [List.length_map]
  have hst : stackT x y z = .ok (stack3 x y z) := by
    unfold stackT
    rw [if_pos ⟨by omega, by omega⟩]
  rw [hst]
  simp only []
  have hslen : (stack3 x y z).length = lon.data.length := by
    unfold stack3
    simp only [List.length_zipWith, List.length_map]
    omega
  rw [if_pos hslen.symm]
  exact ⟨stack3 x y z, hslen, rfl⟩

/-- The per-cell contribution has the field's wavelength count. -/
theorem cell_dF_length (mus : List ℝ) (q : ℝ × ℝ × ℝ → List (List ℝ)) (NW : ℕ)
    (hq : ∀ v, (q v).length = NW) (M : Matrix (Fin 3) (Fin 3) ℝ) (iphi itheta : ℕ) :
    (cell_dF mus q M iphi itheta).length = NW := by
  unfold cell_dF
  simp only []
  rw [List.length_map]
  unfold I_use_at
  by_cases h : (do_intp ℝ mus).getD itheta false = true
  · rw [if_pos h]
    simp [List.length_zipWith, hq]
  · rw [if_neg h]
    simp [hq]

/-- The flux vector has the field's wavelength count. -/
theorem calc_phase_curve_length (p : ℝ) (mus : List ℝ) (q : ℝ × ℝ × ℝ → List (List ℝ))
    (NW : ℕ) (hq : ∀ v, (q v).length = NW) :
    (calc_phase_curve p mus q).length = NW := by
  unfold calc_phase_curve
  rw [phi_p_mean_length, mu_p_mean_length]
  simp only [hq]
  have hstep : ∀ (l : List ℕ) (iphi : ℕ) (acc : List ℝ), acc.length = NW →
      ((l.foldl (fun flux2 itheta => arrAdd flux2 (cell_dF mus q (rotM p) iphi itheta))
        acc).length = NW) := by
    intro l iphi
    induction l with
    | nil => intro acc hacc; simpa using hacc
    | cons k l ih =>
      intro acc hacc
      rw [List.foldl_cons]
      refine ih _ ?_
      unfold arrAdd
      rw [List.length_zipWith, hacc, cell_dF_length mus q NW hq]
      omega
  have houter : ∀ (l : List ℕ) (acc : List ℝ), acc.length = NW →
      ((l.foldl (fun flux iphi => (List.range 10).foldl
        (fun flux2 itheta => arrAdd flux2 (cell_dF mus q (rotM p) iphi itheta)) flux)
        acc).length = NW) := by
    intro l
    induction l with
    | nil => intro acc hacc; simpa using hacc
    | cons k l ih =>
      intro acc hacc
      rw [List.foldl_cons]
      exact ih _ (hstep (List.range 10) k acc hacc)
  exact houter (List.range 10) _ (List.length_replicate _ _)

/-! ## Claims C2, C4, C7, C8, C9 -/

/-- C2 (counterexample): lon of flattened size 2 and lat of flattened size 5
(both rank 1, intensity rank 3 with 5 points) are inconsistent, but the entry
point does not raise its own shape error (`IndexError`, the spec's
`InvalidShapeError`): the mismatch only surfaces as numpy's broadcast
`ValueError` inside the coordinate transform. -/
theorem C2_counterexample :
    (⟨[2], [0, 0]⟩ : NArr).data.length ≠ (⟨[5], [0, 30, 60, -30, -60]⟩ : NArr).data.length
    ∧ wrap_phase_curve replFit [0] ⟨[2], [0, 0]⟩ ⟨[5], [0, 30, 60, -30, -60]⟩ [0, 1]
        ⟨[5, 1, 2], List.replicate 10 1⟩ = .error .valueError
    ∧ PyErr.valueError ≠ PyErr.indexError := by
  refine ⟨by decide, ?_, by decide⟩
  rfl

/-- C2 (amended): the entry point's own validation raises the shape error
(`IndexError`, the spec's `InvalidShapeError`) immediately, with no partial
result, exactly when lon, lat or intensity has a rank outside the accepted
ones.  Inconsistent flattened sizes are not validated by the entry point:
they surface (if at all) later as a different library error (see the
counterexample). -/
theorem C2_amended_rank_error
    (fit : List (ℝ × ℝ × ℝ) → ℕ → ℕ → ℕ → List ℝ → (ℝ × ℝ × ℝ → List (List ℝ)))
    (phases : List ℝ) (lon lat : NArr) (mus : List ℝ) (intensity : NArr)
    (h : (lon.shape.length ≠ 1 ∧ lon.shape.length ≠ 2)
      ∨ (lat.shape.length ≠ 1 ∧ lat.shape.length ≠ 2)
      ∨ (intensity.shape.length ≠ 3 ∧ intensity.shape.length ≠ 4)) :
    wrap_phase_curve fit phases lon lat mus intensity = .error .indexError := by
  have hb : buildField fit lon lat intensity = .error .indexError := by
    unfold buildField
    rcases h with ⟨h1, h2⟩ | ⟨h1, h2⟩ | ⟨h3, h4⟩
    · rw [show formatInput1D lon = .error .indexError from by
        unfold formatInput1D; rw [if_neg h2, if_neg h1]]
    · rcases formatInput1D_ok_or lon with hl | hl <;> rw [hl]
      rw [show formatInput1D lat = .error .indexError from by
        unfold formatInput1D; rw [if_neg h2, if_neg h1]]
    · rcases formatInput1D_ok_or lon with hl | hl <;> rw [hl]
      rcases formatInput1D_ok_or lat with hl2 | hl2 <;> rw [hl2]
      rw [show formatIntensity intensity = .error .indexError from by
        unfold formatIntensity; rw [if_neg h4, if_neg h3]]
  unfold wrap_phase_curve
  rw [hb]

/-- C2 (witness): a rank-3 lon raises the shape error immediately. -/
theorem C2_amended_witness :
    wrap_phase_curve replFit [0] ⟨[1, 1, 1], [0]⟩ ⟨[1], [0]⟩ [0, 1] ⟨[1, 1, 2], [1, 1]⟩
      = .error .indexError :=
  C2_amended_rank_error replFit [0] _ _ [0, 1] _ (Or.inl (by norm_num))

/-- C4: on a well-shaped input whose fitted field is the constant `c` (which
is what the RBF interpolator returns when the intensity data is a single
constant scalar across all samples, wavelengths and mu bins), every output
row equals `c` times the hemisphere sum — so the flux is identical across
all phases and equals the scalar times the sum over all 100 quadrature cells
of (mu-centre × mu-weight × azimuth-weight). -/
theorem C4_isotropic_flux
    (fit : List (ℝ × ℝ × ℝ) → ℕ → ℕ → ℕ → List ℝ → (ℝ × ℝ × ℝ → List (List ℝ)))
    (phases : List ℝ) (lon lat intensity : NArr) (mus : List ℝ)
    (c : ℝ) (NW DD : ℕ) (dat : List ℝ)
    (h2 : 2 ≤ mus.length)
    (hlon : formatInput1D lon = .ok lon.data)
    (hlat : formatInput1D lat = .ok lat.data)
    (hlen : lon.data.length = lat.data.length)
    (hint : formatIntensity intensity = .ok (lon.data.length, NW, DD, dat))
    (hfitc : ∀ pts dat', fit pts lon.data.length NW DD dat'
      = fun _ => List.replicate NW (List.replicate mus.length c)) :
    wrap_phase_curve fit phases lon lat mus intensity
      = .ok (phases.map (fun _ => List.replicate NW (c * hemiSum))) := by
  obtain ⟨points, _, hb⟩ := buildField_ok fit lon lat intensity NW DD dat hlon hlat hlen hint
  unfold wrap_phase_curve
  rw [hb, hfitc]
  exact congrArg Except.ok
    (List.map_congr_left (fun p _ => calc_phase_curve_const mus c NW p h2))

/-- C4 (witness): a concrete three-point constant-intensity input; all three
phase rows equal the hemisphere-sum constant. -/
theorem C4_witness :
    wrap_phase_curve replFit [0, 1/2, 1] ⟨[3], [0, 120, -120]⟩ ⟨[3], [0, 30, -30]⟩ [0, 1]
      ⟨[3, 1, 2], List.replicate 6 1⟩
      = .ok (([0, (1:ℝ)/2, 1]).map (fun _ => List.replicate 1 ((1:ℝ) * hemiSum))) :=
  C4_isotropic_flux replFit [0, 1/2, 1] _ _ _ [0, 1] 1 1 2 (List.replicate 6 1)
    (by norm_num) rfl rfl rfl rfl (fun pts dat' => rfl)

/-- C7: on a well-shaped input (with the scipy contract that the fitted field
returns one row per wavelength), the output is `.ok` with exactly
`len(phases)` rows, the i-th row computed from the i-th phase, and every row
has the intensity tensor's wavelength dimension. -/
theorem C7_output_shape
    (fit : List (ℝ × ℝ × ℝ) → ℕ → ℕ → ℕ → List ℝ → (ℝ × ℝ × ℝ → List (List ℝ)))
    (phases : List ℝ) (lon lat intensity : NArr) (mus : List ℝ)
    (NW DD : ℕ) (dat : List ℝ)
    (hfit : ∀ pts M' N' D' dat' v, ((fit pts M' N' D' dat') v).length = N')
    (hlon : formatInput1D lon = .ok lon.data)
    (hlat : formatInput1D lat = .ok lat.data)
    (hlen : lon.data.length = lat.data.length)
    (hint : formatIntensity intensity = .ok (lon.data.length, NW, DD, dat)) :
    ∃ q, wrap_phase_curve fit phases lon lat mus intensity
        = .ok (phases.map (fun p => calc_phase_curve p mus q))
      ∧ (phases.map (fun p => calc_phase_curve p mus q)).length = phases.length
      ∧ ∀ row ∈ phases.map (fun p => calc_phase_curve p mus q), row.length = NW := by
  obtain ⟨points, _, hb⟩ := buildField_ok fit lon lat intensity NW DD dat hlon hlat hlen hint
  refine ⟨fit points lon.data.length NW DD dat, ?_, List.length_map _ _, ?_⟩
  · unfold wrap_phase_curve
    rw [hb]
  · intro row hrow
    obtain ⟨p, _, hp⟩ := List.mem_map.mp hrow
    rw [← hp]
    exact calc_phase_curve_length p mus _ NW (hfit points lon.data.length NW DD dat)

/-- C7 (witness): concrete instance, two phases, three wavelength channels. -/
theorem C7_witness :
    ∃ q, wrap_phase_curve replFit [0, 1/2] ⟨[2], [0, 90]⟩ ⟨[2], [0, 45]⟩ [0, 1]
        ⟨[2, 3, 2], List.replicate 12 1⟩
        = .ok (([0, (1:ℝ)/2]).map (fun p => calc_phase_curve p [0, 1] q))
      ∧ (([0, (1:ℝ)/2]).map (fun p => calc_phase_curve p [0, 1] q)).length
          = ([0, (1:ℝ)/2] : List ℝ).length
      ∧ ∀ row ∈ ([0, (1:ℝ)/2]).map (fun p => calc_phase_curve p [0, 1] q), row.length = 3 :=
  C7_output_shape replFit [0, 1/2] _ _ _ [0, 1] 3 2 (List.replicate 12 1)
    (fun pts M' N' D' dat' v => by simp [replFit]) rfl rfl rfl rfl

/-- C8: each output row depends only on its own phase (the field and grid are
shared): swapping entries i and j of the phase list swaps output rows i and j
and leaves every other row unchanged. -/
theorem C8_phase_swap
    (fit : List (ℝ × ℝ × ℝ) → ℕ → ℕ → ℕ → List ℝ → (ℝ × ℝ × ℝ → List (List ℝ)))
    (phases : List ℝ) (lon lat intensity : NArr) (mus : List ℝ)
    (rows : List (List ℝ)) (i j : ℕ) (hi : i < phases.length) (hj : j < phases.length)
    (hw : wrap_phase_curve fit phases lon lat mus intensity = .ok rows) :
    wrap_phase_curve fit (swapAt' phases i j 0) lon lat mus intensity
      = .ok (swapAt' rows i j []) := by
  unfold wrap_phase_curve at hw ⊢
  cases hb : buildField fit lon lat intensity with
  | error e =>
    rw [hb] at hw
    simp at hw
  | ok q =>
    rw [hb] at hw
    have hrows : rows = phases.map (fun phase => calc_phase_curve phase mus q) := by
      simpa using hw.symm
    subst hrows
    show Except.ok ((swapAt' phases i j 0).map (fun phase => calc_phase_curve phase mus q))
      = Except.ok
        (swapAt' (phases.map (fun phase => calc_phase_curve phase mus q)) i j [])
    unfold swapAt'
    rw [getD_map_of_lt (fun phase => calc_phase_curve phase mus q) phases j [] 0 hj,
      getD_map_of_lt (fun phase => calc_phase_curve phase mus q) phases i [] 0 hi,
      ← List.map_set, ← List.map_set]

/-- C8 (witness): swapping the two phases of a concrete input swaps the two
output rows. -/
theorem C8_witness :
    wrap_phase_curve replFit (swapAt' [0, (1:ℝ)/2] 0 1 0) ⟨[2], [0, 90]⟩ ⟨[2], [0, 45]⟩ [0, 1]
      ⟨[2, 1, 2], [1, 1, 1, 1]⟩
      = .ok (swapAt' (([0, (1:ℝ)/2]).map (fun p => calc_phase_curve p [0, 1]
          (fun _ => List.replicate 1 (List.replicate 2 1)))) 0 1 []) := by
  apply C8_phase_swap replFit [0, (1:ℝ)/2] _ _ _ _ _ 0 1 (by norm_num) (by norm_num)
  rfl

/-- C9 (counterexample): with the non-monotonic mus `[1/2, 3/10]` on a
well-shaped input the computation does not fail: no validation exists, and
the call completes normally. -/
theorem C9_counterexample :
    ¬ ([1/2, 3/10] : List ℝ).Chain' (· < ·)
    ∧ isOkB (wrap_phase_curve replFit [0] ⟨[2], [0, 90]⟩ ⟨[2], [0, 45]⟩ [1/2, 3/10]
        ⟨[2, 1, 2], [1, 1, 1, 1]⟩) = true := by
  constructor
  · norm_num [List.chain'_cons]
  · rfl

/-- C9 (amended): the computation performs no monotonicity validation on mus
and raises no `InvalidInputError`: on any well-shaped input it proceeds with
whatever bracket entries the scan produces and completes, for an arbitrary
mus sequence (of length at least 2, the regime where the lookup lists cover
all ten centres, see C10). -/
theorem C9_amended_no_validation
    (fit : List (ℝ × ℝ × ℝ) → ℕ → ℕ → ℕ → List ℝ → (ℝ × ℝ × ℝ → List (List ℝ)))
    (phases : List ℝ) (lon lat intensity : NArr) (mus : List ℝ)
    (NW DD : ℕ) (dat : List ℝ)
    (_h2 : 2 ≤ mus.length)
    (hlon : formatInput1D lon = .ok lon.data)
    (hlat : formatInput1D lat = .ok lat.data)
    (hlen : lon.data.length = lat.data.length)
    (hint : formatIntensity intensity = .ok (lon.data.length, NW, DD, dat)) :
    isOkB (wrap_phase_curve fit phases lon lat mus intensity) = true := by
  obtain ⟨points, _, hb⟩ := buildField_ok fit lon lat intensity NW DD dat hlon hlat hlen hint
  unfold wrap_phase_curve
  rw [hb]
  rfl

/-- C9 (amended, witness): concrete well-shaped input with non-monotonic mus
completes normally. -/
theorem C9_amended_witness :
    isOkB (wrap_phase_curve replFit [0] ⟨[2], [0, 90]⟩ ⟨[2], [10, 45]⟩ [1/2, 3/10]
      ⟨[2, 1, 2], [1, 1, 1, 1]⟩) = true :=
  C9_amended_no_validation replFit [0] _ _ _ [1/2, 3/10] 1 2 [1, 1, 1, 1]
    (by norm_num) rfl rfl rfl rfl

/-- C10 (witness): concrete instance at `mus = [0, 1]`. -/
theorem C10_witness :
    10 ≤ (do_intp ℚ [0, 1]).length ∧ 10 ≤ (i_intps ℚ [0, 1]).length := by
  have h := C10_table_bounds ℚ [0, 1] (by norm_num) (by norm_num [List.chain'_cons])
  exact ⟨h.1, h.2.1⟩

end PrtPhasecurve
